import Mathlib

/-!
Verification of the anomaly-detection core (`anomaly_pipeline.py`) against its
natural-language specification.

The numeric pipeline is embedded shallowly: pandas/numpy arrays become `List ℚ`
(timestamps, being int64 nanosecond ticks, also fit in `ℚ`), matrices become
`List (List ℚ)` in row-major order, and the library primitives the script calls
(`np.interp`, `np.argsort`, `DataFrame.sort_values`, `fillna(mean)`,
`StandardScaler`) are modelled from their documented/C semantics.  All
definitions are executable so concrete runs can be checked by `decide`.
-/

namespace AnomalyPipeline

/-! ## Ensembler: `ensemble_score` (lines 51-57) -/

/-- Binary minimum on ℚ, written out so that the kernel can evaluate it. -/
def qmin (a b : ℚ) : ℚ := if a ≤ b then a else b

/-- Binary maximum on ℚ, written out so that the kernel can evaluate it. -/
def qmax (a b : ℚ) : ℚ := if a ≤ b then b else a

/-- Minimum of a numeric array, `combined.min()`.  numpy rejects the empty
array, so the `[]` branch (returning 0) is unreachable in the program. -/
def npMin : List ℚ → ℚ
  | [] => 0
  | x :: xs => xs.foldl qmin x

/-- Maximum of a numeric array, `combined.max()`. -/
def npMax : List ℚ → ℚ
  | [] => 0
  | x :: xs => xs.foldl qmax x

/-- One point of `np.interp(x, (mn, mx), (0, 100))`, following numpy's
`arr_interp` for a two-point table: a point below the table gets the left value
0; a point at or beyond the right endpoint gets the right value 100 (this
branch is also taken when `mn = mx`, because the binary search returns the last
index for `x = mx`); a point equal to the left endpoint gets 0 without touching
the slope; otherwise the result is `slope * (x - mn) + 0` with
`slope = (100 - 0) / (mx - mn)`. -/
def interp0100 (mn mx x : ℚ) : ℚ :=
  if x < mn then 0
  else if mx ≤ x then 100
  else if x = mn then 0
  else 100 / (mx - mn) * (x - mn)

/-- The weighted combination
`weights["IF"] * scores["IF"] + weights["PCA"] * scores["PCA"] + weights["SVM"] * scores["SVM"]`
(lines 52-56), element-wise over the three equal-length score arrays. -/
def combinedScores (wIF wPCA wSVM : ℚ) (sIF sPCA sSVM : List ℚ) : List ℚ :=
  List.zipWith (· + ·)
    (List.zipWith (· + ·) (sIF.map (fun x => wIF * x)) (sPCA.map (fun x => wPCA * x)))
    (sSVM.map (fun x => wSVM * x))

/-- `ensemble_score` (lines 51-57): weighted combination followed by
`np.interp(combined, (combined.min(), combined.max()), (0, 100))`.
The function performs no validation of the weights. -/
def ensemble_score (wIF wPCA wSVM : ℚ) (sIF sPCA sSVM : List ℚ) : List ℚ :=
  let combined := combinedScores wIF wPCA wSVM sIF sPCA sSVM
  combined.map (interp0100 (npMin combined) (npMax combined))

/-! ### Helper lemmas about folds, minima and element access -/

theorem qmin_eq_min (a b : ℚ) : qmin a b = min a b := by rw [qmin, min_def]

theorem qmax_eq_max (a b : ℚ) : qmax a b = max a b := by rw [qmax, max_def]

theorem foldl_qmin_eq (x : ℚ) (xs : List ℚ) : xs.foldl qmin x = xs.foldl min x := by
  have h : qmin = min := funext fun a => funext fun b => qmin_eq_min a b
  rw [h]

theorem foldl_qmax_eq (x : ℚ) (xs : List ℚ) : xs.foldl qmax x = xs.foldl max x := by
  have h : qmax = max := funext fun a => funext fun b => qmax_eq_max a b
  rw [h]

theorem foldl_min_le_init (x : ℚ) (xs : List ℚ) : xs.foldl min x ≤ x := by
  induction xs generalizing x with
  | nil => exact le_refl x
  | cons a t ih => exact le_trans (ih (min x a)) (min_le_left x a)

theorem init_le_foldl_max (x : ℚ) (xs : List ℚ) : x ≤ xs.foldl max x := by
  induction xs generalizing x with
  | nil => exact le_refl x
  | cons a t ih => exact le_trans (le_max_left x a) (ih (max x a))

theorem foldl_min_le {x y : ℚ} {xs : List ℚ} (hy : y ∈ x :: xs) : xs.foldl min x ≤ y := by
  induction xs generalizing x with
  | nil =>
    rw [List.mem_singleton] at hy
    rw [hy]
    exact le_refl x
  | cons a t ih =>
    simp only [List.foldl_cons]
    rcases List.mem_cons.mp hy with h | h
    · rw [h]
      exact le_trans (foldl_min_le_init _ _) (min_le_left x a)
    · rcases List.mem_cons.mp h with h2 | h2
      · rw [h2]
        exact le_trans (foldl_min_le_init _ _) (min_le_right x a)
      · exact ih (List.mem_cons_of_mem _ h2)

theorem le_foldl_max {x y : ℚ} {xs : List ℚ} (hy : y ∈ x :: xs) : y ≤ xs.foldl max x := by
  induction xs generalizing x with
  | nil =>
    rw [List.mem_singleton] at hy
    rw [hy]
    exact le_refl x
  | cons a t ih =>
    simp only [List.foldl_cons]
    rcases List.mem_cons.mp hy with h | h
    · rw [h]
      exact le_trans (le_max_left x a) (init_le_foldl_max _ _)
    · rcases List.mem_cons.mp h with h2 | h2
      · rw [h2]
        exact le_trans (le_max_right x a) (init_le_foldl_max _ _)
      · exact ih (List.mem_cons_of_mem _ h2)

theorem npMin_le {l : List ℚ} {y : ℚ} (hy : y ∈ l) : npMin l ≤ y := by
  cases l with
  | nil => cases hy
  | cons x xs =>
    rw [npMin, foldl_qmin_eq]
    exact foldl_min_le hy

theorem le_npMax {l : List ℚ} {y : ℚ} (hy : y ∈ l) : y ≤ npMax l := by
  cases l with
  | nil => cases hy
  | cons x xs =>
    rw [npMax, foldl_qmax_eq]
    exact le_foldl_max hy

theorem npMin_le_npMax {l : List ℚ} (hl : l ≠ []) : npMin l ≤ npMax l := by
  cases l with
  | nil => exact absurd rfl hl
  | cons x xs => exact le_trans (npMin_le (List.mem_cons_self x xs)) (le_npMax (List.mem_cons_self x xs))

theorem interp0100_nonneg (mn mx x : ℚ) : 0 ≤ interp0100 mn mx x := by
  unfold interp0100
  split_ifs with h1 h2 h3
  · exact le_refl 0
  · norm_num
  · exact le_refl 0
  · have hmn : mn < x := lt_of_le_of_ne (not_lt.mp h1) (Ne.symm h3)
    have hmx : x < mx := not_le.mp h2
    have hd : (0 : ℚ) < mx - mn := by linarith
    have hx : (0 : ℚ) < x - mn := by linarith
    exact le_of_lt (mul_pos (div_pos (by norm_num) hd) hx)

theorem interp0100_le (mn mx x : ℚ) : interp0100 mn mx x ≤ 100 := by
  unfold interp0100
  split_ifs with h1 h2 h3
  · norm_num
  · exact le_refl 100
  · norm_num
  · have hmn : mn < x := lt_of_le_of_ne (not_lt.mp h1) (Ne.symm h3)
    have hmx : x < mx := not_le.mp h2
    have hd : (0 : ℚ) < mx - mn := by linarith
    rw [div_mul_eq_mul_div, div_le_iff₀ hd]
    linarith

theorem interp0100_at_min (mn mx : ℚ) (h : mn < mx) : interp0100 mn mx mn = 0 := by
  unfold interp0100
  rw [if_neg (lt_irrefl mn), if_neg (not_le.mpr h), if_pos rfl]

theorem interp0100_at_max (mn mx : ℚ) (h : mn ≤ mx) : interp0100 mn mx mx = 100 := by
  unfold interp0100
  rw [if_neg (not_lt.mpr h), if_pos (le_refl mx)]

theorem interp0100_degenerate (mn mx x : ℚ) (hmn : mn ≤ x) (heq : mn = mx) :
    interp0100 mn mx x = 100 := by
  unfold interp0100
  rw [if_neg (not_lt.mpr hmn), if_pos (heq ▸ hmn)]

theorem getD_map_zero (f : ℚ → ℚ) (l : List ℚ) (i : Nat) (h : i < l.length) :
    (l.map f).getD i 0 = f (l.getD i 0) := by
  rw [List.getD_eq_getElem _ _ (by simpa using h), List.getD_eq_getElem _ _ h, List.getElem_map]

theorem getD_zipWith_add (l1 l2 : List ℚ) (i : Nat) (h1 : i < l1.length) (h2 : i < l2.length) :
    (List.zipWith (· + ·) l1 l2).getD i 0 = l1.getD i 0 + l2.getD i 0 := by
  rw [List.getD_eq_getElem _ _ (by simp [List.length_zipWith]; omega),
    List.getD_eq_getElem _ _ h1, List.getD_eq_getElem _ _ h2, List.getElem_zipWith]

theorem getD_mem_of_lt (l : List ℚ) (i : Nat) (h : i < l.length) : l.getD i 0 ∈ l := by
  rw [List.getD_eq_getElem _ _ h]
  exact List.getElem_mem h

theorem combinedScores_length (wIF wPCA wSVM : ℚ) (sIF sPCA sSVM : List ℚ) (n : Nat)
    (h1 : sIF.length = n) (h2 : sPCA.length = n) (h3 : sSVM.length = n) :
    (combinedScores wIF wPCA wSVM sIF sPCA sSVM).length = n := by
  simp [combinedScores, List.length_zipWith, h1, h2, h3]

theorem combinedScores_getD (wIF wPCA wSVM : ℚ) (sIF sPCA sSVM : List ℚ) (n : Nat)
    (h1 : sIF.length = n) (h2 : sPCA.length = n) (h3 : sSVM.length = n)
    (i : Nat) (hi : i < n) :
    (combinedScores wIF wPCA wSVM sIF sPCA sSVM).getD i 0 =
      wIF * sIF.getD i 0 + wPCA * sPCA.getD i 0 + wSVM * sSVM.getD i 0 := by
  unfold combinedScores
  rw [getD_zipWith_add _ _ i
      (by simp only [List.length_zipWith, List.length_map]; omega)
      (by simp only [List.length_map]; omega)]
  rw [getD_zipWith_add _ _ i (by simp only [List.length_map]; omega)
      (by simp only [List.length_map]; omega)]
  rw [getD_map_zero _ _ i (by omega), getD_map_zero _ _ i (by omega),
    getD_map_zero _ _ i (by omega)]

theorem ensemble_score_getD (wIF wPCA wSVM : ℚ) (sIF sPCA sSVM : List ℚ) (i : Nat)
    (hi : i < (combinedScores wIF wPCA wSVM sIF sPCA sSVM).length) :
    (ensemble_score wIF wPCA wSVM sIF sPCA sSVM).getD i 0 =
      interp0100 (npMin (combinedScores wIF wPCA wSVM sIF sPCA sSVM))
        (npMax (combinedScores wIF wPCA wSVM sIF sPCA sSVM))
        ((combinedScores wIF wPCA wSVM sIF sPCA sSVM).getD i 0) := by
  unfold ensemble_score
  exact getD_map_zero _ _ i hi

theorem ensemble_score_length (wIF wPCA wSVM : ℚ) (sIF sPCA sSVM : List ℚ) :
    (ensemble_score wIF wPCA wSVM sIF sPCA sSVM).length =
      (combinedScores wIF wPCA wSVM sIF sPCA sSVM).length := by
  unfold ensemble_score
  exact List.length_map _ _

/-- C1: for a non-empty score vector and any weights, `ensemble_score` computes
`combined[i]` as the weighted sum of the three detectors' raw scores at index
`i` and min-max rescales it; when the combined minimum and maximum differ,
every composite value lies in [0, 100], a record attaining the combined
minimum gets composite 0, and a record attaining the combined maximum gets
composite 100. -/
theorem ensemble_minmax_rescale (wIF wPCA wSVM : ℚ) (sIF sPCA sSVM : List ℚ) (n : Nat)
    (c out : List ℚ)
    (h1 : sIF.length = n) (h2 : sPCA.length = n) (h3 : sSVM.length = n) (hn : 0 < n)
    (hc : c = combinedScores wIF wPCA wSVM sIF sPCA sSVM)
    (hout : out = ensemble_score wIF wPCA wSVM sIF sPCA sSVM)
    (hdeg : npMin c ≠ npMax c) :
    (∀ i, i < n →
      c.getD i 0 = wIF * sIF.getD i 0 + wPCA * sPCA.getD i 0 + wSVM * sSVM.getD i 0)
    ∧ out.length = n
    ∧ (∀ i, i < n → 0 ≤ out.getD i 0 ∧ out.getD i 0 ≤ 100)
    ∧ (∀ i, i < n → c.getD i 0 = npMin c → out.getD i 0 = 0)
    ∧ (∀ i, i < n → c.getD i 0 = npMax c → out.getD i 0 = 100) := by
  subst hc hout
  have hclen : (combinedScores wIF wPCA wSVM sIF sPCA sSVM).length = n :=
    combinedScores_length wIF wPCA wSVM sIF sPCA sSVM n h1 h2 h3
  have hcne : combinedScores wIF wPCA wSVM sIF sPCA sSVM ≠ [] := by
    intro h
    rw [h] at hclen
    simp at hclen
    omega
  have hminmax : npMin (combinedScores wIF wPCA wSVM sIF sPCA sSVM) <
      npMax (combinedScores wIF wPCA wSVM sIF sPCA sSVM) :=
    lt_of_le_of_ne (npMin_le_npMax hcne) hdeg
  refine ⟨fun i hi => combinedScores_getD wIF wPCA wSVM sIF sPCA sSVM n h1 h2 h3 i hi,
    by rw [ensemble_score_length, hclen], fun i hi => ?_, fun i hi hmin => ?_,
    fun i hi hmax => ?_⟩
  · rw [ensemble_score_getD _ _ _ _ _ _ i (by omega)]
    exact ⟨interp0100_nonneg _ _ _, interp0100_le _ _ _⟩
  · rw [ensemble_score_getD _ _ _ _ _ _ i (by omega), hmin]
    exact interp0100_at_min _ _ hminmax
  · rw [ensemble_score_getD _ _ _ _ _ _ i (by omega), hmax]
    exact interp0100_at_max _ _ (le_of_lt hminmax)

/-- Witness for C1 on a concrete run: scores `[0, 1]` for each detector with the
default weights give composites `[0, 100]`, inside the bounds. -/
theorem ensemble_minmax_rescale_witness :
    (0 : ℚ) ≤ (ensemble_score (1/2) (3/10) (1/5) [0, 1] [0, 1] [0, 1]).getD 0 0
    ∧ (ensemble_score (1/2) (3/10) (1/5) [0, 1] [0, 1] [0, 1]).getD 0 0 = 0
    ∧ (ensemble_score (1/2) (3/10) (1/5) [0, 1] [0, 1] [0, 1]).getD 1 0 = 100 := by
  have h := ensemble_minmax_rescale (1/2) (3/10) (1/5) [0, 1] [0, 1] [0, 1] 2
    (combinedScores (1/2) (3/10) (1/5) [0, 1] [0, 1] [0, 1])
    (ensemble_score (1/2) (3/10) (1/5) [0, 1] [0, 1] [0, 1])
    (by decide) (by decide) (by decide) (by decide) rfl rfl
    (by norm_num [combinedScores, npMin, npMax, qmin, qmax])
  exact ⟨(h.2.2.1 0 (by decide)).1,
    h.2.2.2.1 0 (by decide) (by norm_num [combinedScores, npMin, npMax, qmin, qmax]),
    h.2.2.2.2 1 (by decide) (by norm_num [combinedScores, npMin, npMax, qmin, qmax])⟩

/-- C2 as stated is false on the code: on a degenerate input where every
combined score is equal, `np.interp` maps every point to the right endpoint of
the output range, so `ensemble_score` returns an array of 100s, not of 0s. -/
theorem ensemble_degenerate_not_zero :
    ensemble_score (1/2) (3/10) (1/5) [1, 1] [1, 1] [1, 1] = [100, 100]
    ∧ (ensemble_score (1/2) (3/10) (1/5) [1, 1] [1, 1] [1, 1]).getD 0 0 ≠ 0 := by
  constructor
  · norm_num [ensemble_score, combinedScores, npMin, npMax, qmin, qmax, interp0100]
  · norm_num [ensemble_score, combinedScores, npMin, npMax, qmin, qmax, interp0100]

/-- C2 amended: on every input whose combined weighted scores are all equal
(min = max), `ensemble_score` returns 100 at every position (no division fault
is raised; the division branch of the interpolation is never taken). -/
theorem ensemble_degenerate_all_hundred (wIF wPCA wSVM : ℚ) (sIF sPCA sSVM : List ℚ)
    (c : List ℚ) (hc : c = combinedScores wIF wPCA wSVM sIF sPCA sSVM)
    (hdeg : npMin c = npMax c) :
    ∀ i, i < (ensemble_score wIF wPCA wSVM sIF sPCA sSVM).length →
      (ensemble_score wIF wPCA wSVM sIF sPCA sSVM).getD i 0 = 100 := by
  subst hc
  intro i hi
  rw [ensemble_score_length] at hi
  rw [ensemble_score_getD _ _ _ _ _ _ i hi]
  exact interp0100_degenerate _ _ _ (npMin_le (getD_mem_of_lt _ i hi)) hdeg

/-- Witness for the amended C2 at a concrete degenerate input. -/
theorem ensemble_degenerate_all_hundred_witness :
    (ensemble_score (1/2) (3/10) (1/5) [2, 2, 2] [2, 2, 2] [2, 2, 2]).getD 1 0 = 100 :=
  ensemble_degenerate_all_hundred (1/2) (3/10) (1/5) [2, 2, 2] [2, 2, 2] [2, 2, 2]
    (combinedScores (1/2) (3/10) (1/5) [2, 2, 2] [2, 2, 2] [2, 2, 2]) rfl
    (by norm_num [combinedScores, npMin, npMax, qmin, qmax])
    1 (by simp [ensemble_score, combinedScores])

/-- C3 as stated is false on the code: `ensemble_score` contains no weight
validation at all.  With weights `{IF: 0.5, PCA: 0.5, SVM: 0.5}` (sum 1.5) it
returns a normal score array instead of raising `InvalidWeightsError` (no such
exception exists anywhere in the source). -/
theorem ensemble_weights_unchecked :
    ensemble_score (1/2) (1/2) (1/2) [0, 2] [0, 2] [0, 2] = [0, 100] := by
  norm_num [ensemble_score, combinedScores, npMin, npMax, qmin, qmax, interp0100]

/-- C3 amended: the Ensembler accepts every weight mapping, whether or not it
sums to 1.0, and always produces a composite array bounded in [0, 100]. -/
theorem ensemble_any_weights_bounded (wIF wPCA wSVM : ℚ) (sIF sPCA sSVM : List ℚ) :
    ∀ i, i < (ensemble_score wIF wPCA wSVM sIF sPCA sSVM).length →
      0 ≤ (ensemble_score wIF wPCA wSVM sIF sPCA sSVM).getD i 0
      ∧ (ensemble_score wIF wPCA wSVM sIF sPCA sSVM).getD i 0 ≤ 100 := by
  intro i hi
  rw [ensemble_score_length] at hi
  rw [ensemble_score_getD _ _ _ _ _ _ i hi]
  exact ⟨interp0100_nonneg _ _ _, interp0100_le _ _ _⟩

/-- Witness for the amended C3 at weights summing to 1.8. -/
theorem ensemble_any_weights_bounded_witness :
    (0 : ℚ) ≤ (ensemble_score (3/5) (3/5) (3/5) [1, 4] [2, 3] [0, 5]).getD 0 0
    ∧ (ensemble_score (3/5) (3/5) (3/5) [1, 4] [2, 3] [0, 5]).getD 0 0 ≤ 100 :=
  ensemble_any_weights_bounded (3/5) (3/5) (3/5) [1, 4] [2, 3] [0, 5] 0
    (by simp [ensemble_score, combinedScores])

/-! ## FeatureScaler: `scale_data` (lines 17-21), i.e. sklearn's StandardScaler
fitted on the training matrix only -/

/-- Arithmetic mean of a feature column: StandardScaler's per-feature `mean_`. -/
def popMean (xs : List ℚ) : ℚ := xs.sum / xs.length

/-- Population variance (ddof = 0): StandardScaler's per-feature `var_`. -/
def popVar (xs : List ℚ) : ℚ :=
  ((xs.map (fun x => (x - popMean xs) * (x - popMean xs))).sum) / xs.length

/-- sklearn's `_handle_zeros_in_scale`: a scale of exactly 0 is replaced by 1
so that the subsequent division is always defined. -/
def handle_zeros_in_scale (s : ℚ) : ℚ := if s = 0 then 1 else s

/-- The square of StandardScaler's `scale_`.  The library computes
`scale_ = _handle_zeros_in_scale(sqrt(var_))`; since `sqrt(var_) = 0` iff
`var_ = 0`, squaring gives `scale_^2 = _handle_zeros_in_scale(var_)`.  The
square root itself is irrational in general, so the rational model carries the
square and theorems quantify over any positive `s` with `s * s = scaleSq`. -/
def scaleSq (xs : List ℚ) : ℚ := handle_zeros_in_scale (popVar xs)

/-- `StandardScaler.transform` on one feature column, given the fitted mean
`m` and scale `s`: elementwise `(x - m) / s`. -/
def transformWith (m s : ℚ) (xs : List ℚ) : List ℚ := xs.map (fun x => (x - m) / s)

/-- C7: for a training feature constant across all rows the variance is 0,
sklearn replaces the zero standard deviation by 1 (any positive `s` with
`s * s = scaleSq` equals 1), the scaled training column is identically 0, and
transforming any other column with these fitted statistics just subtracts the
constant — no division fault, every output a finite rational. -/
theorem scaler_constant_feature (xs : List ℚ) (c s : ℚ)
    (hne : xs ≠ []) (hconst : ∀ x ∈ xs, x = c)
    (hs_pos : 0 < s) (hs : s * s = scaleSq xs) :
    s = 1
    ∧ transformWith (popMean xs) s xs = List.replicate xs.length 0
    ∧ ∀ ys : List ℚ, transformWith (popMean xs) s ys = ys.map (fun y => y - c) := by
  have hlen : (xs.length : ℚ) ≠ 0 := by
    have : xs.length ≠ 0 := fun h => hne (List.length_eq_zero.mp h)
    exact_mod_cast this
  have hmean : popMean xs = c := by
    rw [popMean, List.sum_eq_card_nsmul xs c hconst, nsmul_eq_mul]
    field_simp
  have hvar : popVar xs = 0 := by
    rw [popVar, List.sum_eq_zero, zero_div]
    intro x hx
    rcases List.mem_map.mp hx with ⟨y, hy, hyx⟩
    rw [← hyx, hmean, hconst y hy]
    ring
  have hsq : scaleSq xs = 1 := by
    rw [scaleSq, hvar, handle_zeros_in_scale, if_pos rfl]
  have hs1 : s = 1 := by
    rcases mul_self_eq_one_iff.mp (hs.trans hsq) with h | h
    · exact h
    · nlinarith
  subst hs1
  refine ⟨rfl, ?_, fun ys => ?_⟩
  · rw [List.eq_replicate_iff]
    refine ⟨by rw [transformWith, List.length_map], fun b hb => ?_⟩
    rcases List.mem_map.mp hb with ⟨y, hy, hyb⟩
    rw [← hyb, hmean, hconst y hy]
    ring
  · rw [transformWith, hmean]
    exact List.map_congr_left (fun y _ => by ring)

/-- Witness for C7: the constant column `[3, 3]` scales to `[0, 0]` and the
test value 5 is transformed to `5 - 3 = 2`. -/
theorem scaler_constant_feature_witness :
    transformWith (popMean [3, 3]) 1 [3, 3] = List.replicate 2 0
    ∧ transformWith (popMean [3, 3]) 1 [5] = [2] := by
  have h := scaler_constant_feature [3, 3] 3 1 (by decide) (by decide) (by norm_num)
    (by norm_num [scaleSq, popVar, popMean, handle_zeros_in_scale])
  refine ⟨h.2.1, ?_⟩
  rw [h.2.2 [5]]
  norm_num

/-! ## DataPreparer: `validate_and_prepare` (lines 10-13) and its two
independent uses in the pipeline (lines 87-88) -/

/-- pandas `Series.mean()` on a column with missing values (`none` is NaN):
mean of the present values only (skipna). -/
def colMean (col : List (Option ℚ)) : ℚ :=
  (col.filterMap id).sum / (col.filterMap id).length

/-- One numeric column of `validate_and_prepare` (line 13):
`df.fillna(df.mean())` replaces each missing entry by the mean of the same
column of the same partition. -/
def fillna_mean (col : List (Option ℚ)) : List ℚ :=
  col.map (fun v => v.getD (colMean col))

/-- Lines 87-88 of the pipeline: training and test partitions are cleaned by
two separate calls `validate_and_prepare(df_train)` and
`validate_and_prepare(df_test)`, each imputing from its own partition. -/
def prepare_partitions (train test : List (Option ℚ)) : List ℚ × List ℚ :=
  (fillna_mean train, fillna_mean test)

theorem getD_map_general {α β : Type} (f : α → β) (l : List α) (i : Nat) (d : α) (e : β)
    (h : i < l.length) : (l.map f).getD i e = f (l.getD i d) := by
  rw [List.getD_eq_getElem _ _ (by simpa using h), List.getD_eq_getElem _ _ h, List.getElem_map]

/-- C8: each partition is imputed with its own column mean.  A missing entry
in the test partition becomes the test column's mean, a present entry is kept,
and the prepared test partition does not depend on the training partition at
all (the training mean is never applied to the test); symmetrically, a missing
training entry becomes the training column's mean. -/
theorem impute_same_partition (train test : List (Option ℚ))
    (_hp_test : 0 < (test.filterMap id).length)
    (_hp_train : 0 < (train.filterMap id).length) :
    (∀ i, i < test.length → test.getD i none = none →
      (prepare_partitions train test).2.getD i 0 = colMean test)
    ∧ (∀ i, i < test.length → ∀ v, test.getD i none = some v →
      (prepare_partitions train test).2.getD i 0 = v)
    ∧ (∀ train2 : List (Option ℚ),
      (prepare_partitions train2 test).2 = (prepare_partitions train test).2)
    ∧ (∀ i, i < train.length → train.getD i none = none →
      (prepare_partitions train test).1.getD i 0 = colMean train) := by
  refine ⟨fun i hi hmiss => ?_, fun i hi v hv => ?_, fun train2 => rfl, fun i hi hmiss => ?_⟩
  · show (fillna_mean test).getD i 0 = colMean test
    rw [fillna_mean, getD_map_general _ _ i none 0 hi, hmiss]
    rfl
  · show (fillna_mean test).getD i 0 = v
    rw [fillna_mean, getD_map_general _ _ i none 0 hi, hv]
    rfl
  · show (fillna_mean train).getD i 0 = colMean train
    rw [fillna_mean, getD_map_general _ _ i none 0 hi, hmiss]
    rfl

/-- Witness for C8 on a concrete pair of partitions: the missing test entry is
filled with the test column's own mean. -/
theorem impute_same_partition_witness :
    (prepare_partitions [some 10, none] [some 1, none, some 3]).2.getD 1 0
      = colMean [some 1, none, some 3] :=
  (impute_same_partition [some 10, none] [some 1, none, some 3]
    (by decide) (by decide)).1 1 (by decide) (by decide)

/-! ## OutputAssembler: lines 103-114 of `run_anomaly_pipeline` -/

/-- One record of the (time-parsed) dataset: the parsed `Time` value (an int64
nanosecond tick, kept in ℚ) and the numeric feature values in the fixed column
order. -/
structure Row where
  time : ℚ
  fields : List ℚ
deriving DecidableEq

/-- Default row used for out-of-range `getD` access (never reached under the
length hypotheses of the theorems below). -/
def row0 : Row := ⟨0, []⟩

/-- One output record: `df_test.copy()` plus the appended score columns
(line 105-108) and the `{col}_copy` columns (lines 112-114). -/
structure OutRow where
  orig : Row
  abnormality_score : ℚ
  IF_score : ℚ
  PCA_score : ℚ
  SVM_score : ℚ
  copies : List (String × ℚ)
deriving DecidableEq

/-- Default output row for out-of-range `getD` access. -/
def outRow0 : OutRow := ⟨row0, 0, 0, 0, 0, []⟩

/-- `df_test[c]` for one test row: the parsed `Time` column, or a feature
column addressed by name through the fixed feature-name order. -/
def colValue (names : List String) (r : Row) (c : String) : ℚ :=
  if c = "Time" then r.time else r.fields.getD (names.indexOf c) 0

/-- Lines 112-114: `for col in top_features: if col in df_test.columns:
output_df[f"{col}_copy"] = df_test[col]` — columns of `df_test` are the time
column plus the feature columns. -/
def rowCopies (names : List String) (top : List String) (r : Row) : List (String × ℚ) :=
  top.filterMap (fun c =>
    if c = "Time" ∨ c ∈ names then some (c ++ "_copy", colValue names r c) else none)

/-- Lines 103-114: the output table is `df_test.copy()` with the composite
score, the three raw score columns, and the top-feature copies appended;
one output row per test row, in the test partition's row order. -/
def build_output (names : List String) (test : List Row)
    (ens sIF sPCA sSVM : List ℚ) (top : List String) : List OutRow :=
  (List.range test.length).map (fun i =>
    { orig := test.getD i row0
      abnormality_score := ens.getD i 0
      IF_score := sIF.getD i 0
      PCA_score := sPCA.getD i 0
      SVM_score := sSVM.getD i 0
      copies := rowCopies names top (test.getD i row0) })

theorem range_getD (n i : Nat) (h : i < n) : (List.range n).getD i 0 = i := by
  rw [List.getD_eq_getElem _ _ (by simpa using h), List.getElem_range]

theorem rowCopies_of_features (names : List String) (r : Row) :
    ∀ top : List String, (∀ c ∈ top, c ∈ names ∧ c ≠ "Time") →
      rowCopies names top r
        = top.map (fun c => (c ++ "_copy", r.fields.getD (names.indexOf c) 0)) := by
  intro top
  induction top with
  | nil => intro _; rfl
  | cons a t ih =>
    intro htop
    have ha := htop a (List.mem_cons_self a t)
    have hrest : ∀ c ∈ t, c ∈ names ∧ c ≠ "Time" :=
      fun c hc => htop c (List.mem_cons_of_mem a hc)
    show List.filterMap _ (a :: t) = _
    rw [List.filterMap_cons]
    rw [if_pos (Or.inr ha.1)]
    rw [List.map_cons]
    have hcv : colValue names r a = r.fields.getD (names.indexOf a) 0 := by
      rw [colValue, if_neg ha.2]
    rw [hcv]
    exact congrArg (List.cons _) (ih hrest)

/-- C9: the OutputAssembler produces exactly one output record per test
record, none filtered out, in the test partition's row order; record `i`
carries test record `i` unchanged, its composite score, its three raw
detector scores, and a `{col}_copy` of each ranked feature's original
(unscaled) value. -/
theorem output_one_record_per_test (names : List String) (test : List Row)
    (ens sIF sPCA sSVM : List ℚ) (top : List String)
    (htop : ∀ c ∈ top, c ∈ names ∧ c ≠ "Time") :
    (build_output names test ens sIF sPCA sSVM top).length = test.length
    ∧ ∀ i, i < test.length →
      ((build_output names test ens sIF sPCA sSVM top).getD i outRow0).orig
          = test.getD i row0
      ∧ ((build_output names test ens sIF sPCA sSVM top).getD i outRow0).abnormality_score
          = ens.getD i 0
      ∧ ((build_output names test ens sIF sPCA sSVM top).getD i outRow0).IF_score
          = sIF.getD i 0
      ∧ ((build_output names test ens sIF sPCA sSVM top).getD i outRow0).PCA_score
          = sPCA.getD i 0
      ∧ ((build_output names test ens sIF sPCA sSVM top).getD i outRow0).SVM_score
          = sSVM.getD i 0
      ∧ ((build_output names test ens sIF sPCA sSVM top).getD i outRow0).copies
          = top.map (fun c =>
              (c ++ "_copy", (test.getD i row0).fields.getD (names.indexOf c) 0)) := by
  constructor
  · rw [build_output, List.length_map, List.length_range]
  · intro i hi
    have hacc : (build_output names test ens sIF sPCA sSVM top).getD i outRow0
        = { orig := test.getD i row0
            abnormality_score := ens.getD i 0
            IF_score := sIF.getD i 0
            PCA_score := sPCA.getD i 0
            SVM_score := sSVM.getD i 0
            copies := rowCopies names top (test.getD i row0) } := by
      rw [build_output, getD_map_general _ _ i 0 outRow0 (by simpa using hi), range_getD _ _ hi]
    rw [hacc, rowCopies_of_features names _ top htop]
    exact ⟨rfl, rfl, rfl, rfl, rfl, rfl⟩

/-- Witness for C9 on a one-row test partition with two features, copying the
ranked feature `b`. -/
theorem output_one_record_per_test_witness :
    (build_output ["a", "b"] [Row.mk 5 [1, 2]] [7] [8] [9] [10] ["b"]).length = 1
    ∧ ((build_output ["a", "b"] [Row.mk 5 [1, 2]] [7] [8] [9] [10] ["b"]).getD 0
        outRow0).copies = [("b_copy", 2)] := by
  have h := output_one_record_per_test ["a", "b"] [Row.mk 5 [1, 2]] [7] [8] [9] [10] ["b"]
    (by decide)
  refine ⟨h.1, ?_⟩
  rw [((h.2 0 (by decide)).2.2.2.2.2 : _ = _)]
  decide

/-! ## `np.argsort(..., kind='quicksort')`, numpy's introsort over an index
array.  This is the sort behind both `df_raw.sort_values(by=time_col)`
(line 79; pandas `nargsort` argsorts the parsed timestamps with the default
kind) and `np.argsort(variances)` (line 63).  Translated from numpy's C
sources (`aquicksort_` / `aheapsort_` for scalar keys): the key array `v` is
read-only and an index array `tosort` is permuted in place.  C loops become
fuel-indexed recursion; every fuel used below is large enough for the
corresponding loop, and a (unreachable) fuel exhaustion returns the index
list unchanged. -/

/-- `tosort[i]`. -/
def idxGet (t : List Nat) (i : Nat) : Nat := t.getD i 0

/-- Swap `tosort[i]` and `tosort[j]` (`INTP_SWAP`). -/
def idxSwap (t : List Nat) (i j : Nat) : List Nat :=
  (t.set i (idxGet t j)).set j (idxGet t i)

/-- `v[tosort[i]]`: the key the i-th index slot points at. -/
def keyAt (v : List ℚ) (t : List Nat) (i : Nat) : ℚ := v.getD (idxGet t i) 0

/-- `do ++pi; while (v[*pi] < vp)`: the first position strictly after `start`
whose key is not below the pivot. -/
def scanUp (v : List ℚ) (t : List Nat) (vp : ℚ) : Nat → Nat → Nat
  | start, 0 => start + 1
  | start, fuel+1 =>
    if keyAt v t (start + 1) < vp then scanUp v t vp (start + 1) fuel else start + 1

/-- `do --pj; while (vp < v[*pj])`: the first position strictly before `start`
whose key is not above the pivot. -/
def scanDown (v : List ℚ) (t : List Nat) (vp : ℚ) : Nat → Nat → Nat
  | start, 0 => start - 1
  | start, fuel+1 =>
    if vp < keyAt v t (start - 1) then scanDown v t vp (start - 1) fuel else start - 1

/-- The exchange loop of the partition step: advance from both ends, stop when
the cursors meet (`if (pi >= pj) break`), otherwise swap and continue. -/
def partLoop (v : List ℚ) (vp : ℚ) : List Nat → Nat → Nat → Nat → List Nat × Nat
  | t, pi, _, 0 => (t, pi)
  | t, pi, pj, fuel+1 =>
    let pi2 := scanUp v t vp pi v.length
    let pj2 := scanDown v t vp pj v.length
    if pj2 ≤ pi2 then (t, pi2)
    else partLoop v vp (idxSwap t pi2 pj2) pi2 pj2 fuel

/-- One partition of `[pl, pr]`: median-of-three pivot selection, pivot parked
at `pr - 1`, exchange loop from `(pl, pr - 1)`, pivot restored at the final
`pi`.  Returns the permuted indices and the pivot position. -/
def partitionStep (v : List ℚ) (t : List Nat) (pl pr : Nat) : List Nat × Nat :=
  let pm := pl + (pr - pl) / 2
  let t1 := if keyAt v t pm < keyAt v t pl then idxSwap t pm pl else t
  let t2 := if keyAt v t1 pr < keyAt v t1 pm then idxSwap t1 pr pm else t1
  let t3 := if keyAt v t2 pm < keyAt v t2 pl then idxSwap t2 pm pl else t2
  let vp := keyAt v t3 pm
  let t4 := idxSwap t3 pm (pr - 1)
  let res := partLoop v vp t4 pl (pr - 1) v.length
  (idxSwap res.1 res.2 (pr - 1), res.2)

/-- The shifting loop of the insertion sort:
`while (pj > pl && vp < v[*pk]) *pj-- = *pk--;` then `*pj = vi`. -/
def insShift (v : List ℚ) (vi : Nat) (vp : ℚ) (pl : Nat) : List Nat → Nat → Nat → List Nat
  | t, pj, 0 => t.set pj vi
  | t, pj, fuel+1 =>
    if pl < pj ∧ vp < keyAt v t (pj - 1) then
      insShift v vi vp pl (t.set pj (idxGet t (pj - 1))) (pj - 1) fuel
    else t.set pj vi

/-- `for (pi = pl + 1; pi <= pr; ++pi)` of the insertion sort. -/
def insLoop (v : List ℚ) (pl : Nat) : List Nat → Nat → Nat → List Nat
  | t, _, 0 => t
  | t, pi, fuel+1 =>
    insLoop v pl (insShift v (idxGet t pi) (v.getD (idxGet t pi) 0) pl t pi v.length)
      (pi + 1) fuel

/-- numpy's stable insertion sort on the index range `[pl, pr]`. -/
def insertionSortRange (v : List ℚ) (t : List Nat) (pl pr : Nat) : List Nat :=
  insLoop v pl t (pl + 1) (pr - pl)

/-- `a[idx]` through numpy heapsort's 1-based view `a = tosort + pl - 1`. -/
def hGet (t : List Nat) (pl idx : Nat) : Nat := idxGet t (pl + idx - 1)

/-- `a[idx] = w` through the 1-based heap view. -/
def hSet (t : List Nat) (pl idx w : Nat) : List Nat := t.set (pl + idx - 1) w

/-- The shared sift-down loop of numpy's `aheapsort_`:
`for (i, j; j <= n;) { if (j < n && v[a[j]] < v[a[j+1]]) j++;
if (v[tmp] < v[a[j]]) { a[i] = a[j]; i = j; j += j; } else break; } a[i] = tmp`. -/
def siftDown (v : List ℚ) (pl n tmp : Nat) : List Nat → Nat → Nat → Nat → List Nat
  | t, i, _, 0 => hSet t pl i tmp
  | t, i, j, fuel+1 =>
    if n < j then hSet t pl i tmp
    else
      let j2 := if j < n ∧ v.getD (hGet t pl j) 0 < v.getD (hGet t pl (j + 1)) 0 then j + 1 else j
      if v.getD tmp 0 < v.getD (hGet t pl j2) 0 then
        siftDown v pl n tmp (hSet t pl i (hGet t pl j2)) j2 (j2 + j2) fuel
      else hSet t pl i tmp

/-- Heap construction, `for (l = n >> 1; l > 0; --l)`. -/
def heapBuild (v : List ℚ) (pl n : Nat) : List Nat → Nat → List Nat
  | t, 0 => t
  | t, l+1 => heapBuild v pl n (siftDown v pl n (hGet t pl (l + 1)) t (l + 1) (l + 1 + (l + 1)) (n + 1)) l

/-- Heap extraction, `for (; n > 1;)`: move the maximum to the end and sift
the displaced root down the shrunk heap. -/
def heapExtract (v : List ℚ) (pl : Nat) : List Nat → Nat → List Nat
  | t, 0 => t
  | t, 1 => t
  | t, m+2 =>
    heapExtract v pl
      (siftDown v pl (m + 1) (hGet t pl (m + 2)) (hSet t pl (m + 2) (hGet t pl 1)) 1 2 (m + 2))
      (m + 1)

/-- numpy `aheapsort_` on the index subrange of `n` elements starting at
`pl`. -/
def aheapsort (v : List ℚ) (t : List Nat) (pl n : Nat) : List Nat :=
  heapExtract v pl (heapBuild v pl n t (n / 2)) n

/-- `npy_get_msb`, the position of the most significant bit (`while (unum >>= 1)
depth_limit++`); fuel-indexed, `getMsb n n` computes it. -/
def getMsb : Nat → Nat → Nat
  | _, 0 => 0
  | n, fuel+1 => if n / 2 = 0 then 0 else getMsb (n / 2) fuel + 1

/-- The introsort recursion of numpy `aquicksort_`: a range of more than
`SMALL_QUICKSORT = 15` elements is partitioned — falling back to heapsort once
the depth budget `cdepth` is exhausted — and both subranges continue with
`cdepth - 1` (the C code pushes the larger one on an explicit stack with the
decremented depth and loops on the smaller; the resulting index list is the
same).  Ranges of at most 16 elements get the stable insertion sort. -/
def qsortRange (v : List ℚ) : List Nat → Nat → Nat → ℤ → Nat → List Nat
  | t, _, _, _, 0 => t
  | t, pl, pr, cdepth, fuel+1 =>
    if 15 < pr - pl then
      if cdepth < 0 then aheapsort v t pl (pr - pl + 1)
      else
        let res := partitionStep v t pl pr
        qsortRange v (qsortRange v res.1 pl (res.2 - 1) (cdepth - 1) fuel)
          (res.2 + 1) pr (cdepth - 1) fuel
    else insertionSortRange v t pl pr

/-- `np.argsort(v, kind='quicksort')`: indices `0..n-1` permuted so that the
keys come out ascending; depth budget `2 * npy_get_msb(n)`. -/
def argsortQ (v : List ℚ) : List Nat :=
  qsortRange v (List.range v.length) 0 (v.length - 1)
    (2 * (getMsb v.length v.length : ℤ)) (v.length + 1)

/-! ## TemporalSplitter: lines 77-84 of `run_anomaly_pipeline` -/

/-- `int(len(df_raw) * 0.7)` (line 82) in exact arithmetic: ⌊7n/10⌋. -/
def split_idx (n : Nat) : Nat := 7 * n / 10

/-- Lines 79-83 parameterized by the index permutation the sorting library
returns: reorder the rows by it, then split off the first `split_idx n` rows
as training and the rest as test (`iloc[:k]` / `iloc[k:]`). -/
def temporalSplitWith (perm : List Nat) (rows : List Row) : List Row × List Row :=
  ((perm.map (fun i => rows.getD i row0)).take (split_idx rows.length),
    (perm.map (fun i => rows.getD i row0)).drop (split_idx rows.length))

/-- Lines 79-83: `df_raw.sort_values(by=time_col)` — pandas `nargsort`, i.e.
`np.argsort` with the default `kind='quicksort'` on the parsed timestamps —
followed by the 70/30 positional split. -/
def temporalSplit (rows : List Row) : List Row × List Row :=
  temporalSplitWith (argsortQ (rows.map Row.time)) rows

/-- The 17-row dataset with identical timestamps used to exhibit the
unstable sort; row `i` carries the single feature value `i`. -/
def rows17 : List Row := (List.range 17).map (fun i => ⟨0, [(i : ℚ)]⟩)

theorem pairwise_take_drop {α : Type} {R : α → α → Prop} {l : List α}
    (h : l.Pairwise R) (k : Nat) :
    ∀ a ∈ l.take k, ∀ b ∈ l.drop k, R a b := by
  have h2 : (l.take k ++ l.drop k).Pairwise R := by rwa [List.take_append_drop]
  exact (List.pairwise_append.mp h2).2.2

set_option maxRecDepth 8000 in
/-- C4's stable-sort clause is false on the code: `sort_values` uses the
library default quicksort, which is unstable from 17 elements on.  On 17 rows
with equal timestamps a stable sort (ties broken by original row order) would
return the first 11 rows unchanged as the training partition, but the code
returns them scrambled: row 14 ends up in position 1. -/
theorem temporal_split_not_stable :
    (temporalSplit rows17).1 ≠ rows17.take (split_idx rows17.length)
    ∧ (temporalSplit rows17).1.getD 1 row0 = ⟨0, [14]⟩ := by
  constructor
  · decide
  · decide

/-- C4 amended: the splitter orders the dataset ascending by parsed timestamp
(by whatever ascending index permutation the library's unstable quicksort
returns — ties between equal timestamps are not kept in original row order)
and partitions it at ⌊n·0.7⌋ (the fraction is hardcoded); the partition sizes
add up to n and every training timestamp is at most every test timestamp. -/
theorem temporal_split_sorted_partition (rows : List Row) (perm : List Nat)
    (hperm : perm.Perm (List.range rows.length))
    (hsort : (perm.map (fun i => (rows.getD i row0).time)).Pairwise (· ≤ ·)) :
    (temporalSplitWith perm rows).1.length = split_idx rows.length
    ∧ (temporalSplitWith perm rows).1.length + (temporalSplitWith perm rows).2.length
        = rows.length
    ∧ ∀ a ∈ (temporalSplitWith perm rows).1, ∀ b ∈ (temporalSplitWith perm rows).2,
        a.time ≤ b.time := by
  have hlen : (perm.map (fun i => rows.getD i row0)).length = rows.length := by
    rw [List.length_map, hperm.length_eq, List.length_range]
  have hk : split_idx rows.length ≤ rows.length := by
    rw [split_idx]
    omega
  refine ⟨?_, ?_, ?_⟩
  · show ((perm.map (fun i => rows.getD i row0)).take (split_idx rows.length)).length = _
    rw [List.length_take, hlen]
    omega
  · show ((perm.map (fun i => rows.getD i row0)).take (split_idx rows.length)).length
        + ((perm.map (fun i => rows.getD i row0)).drop (split_idx rows.length)).length = _
    rw [List.length_take, List.length_drop, hlen]
    omega
  · have hsort2 : ((perm.map (fun i => rows.getD i row0)).map Row.time).Pairwise (· ≤ ·) := by
      rw [List.map_map]
      exact hsort
    exact pairwise_take_drop (List.pairwise_map.mp hsort2) (split_idx rows.length)

/-- Witness for the amended C4 at a concrete two-row dataset sorted by the
permutation `[1, 0]`. -/
theorem temporal_split_sorted_partition_witness :
    (temporalSplitWith [1, 0] [Row.mk 5 [], Row.mk 3 []]).1.length
        + (temporalSplitWith [1, 0] [Row.mk 5 [], Row.mk 3 []]).2.length = 2 :=
  (temporal_split_sorted_partition [Row.mk 5 [], Row.mk 3 []] [1, 0]
    (by decide) (by decide)).2.1

/-- C5 is false on the code: there is no emptiness check and no
`InsufficientDataError` anywhere in the source.  A single-record dataset is
split into an empty training partition and a one-record test partition, and
this pair is returned normally for the next stage to consume. -/
theorem temporal_split_empty_train_returned :
    temporalSplit [Row.mk 0 [5]] = ([], [Row.mk 0 [5]]) := by decide

/-- C5 amended: the splitter returns partitions of sizes ⌊0.7·n⌋ and
n − ⌊0.7·n⌋ unconditionally; in particular a dataset of one record yields an
empty training partition that is handed to the following stage instead of
aborting the run. -/
theorem temporal_split_no_empty_check (rows : List Row) (perm : List Nat)
    (hperm : perm.Perm (List.range rows.length)) :
    (temporalSplitWith perm rows).1.length = split_idx rows.length
    ∧ (temporalSplitWith perm rows).2.length = rows.length - split_idx rows.length
    ∧ (rows.length = 1 → (temporalSplitWith perm rows).1 = []) := by
  have hlen : (perm.map (fun i => rows.getD i row0)).length = rows.length := by
    rw [List.length_map, hperm.length_eq, List.length_range]
  have hk : split_idx rows.length ≤ rows.length := by
    rw [split_idx]
    omega
  have h1 : (temporalSplitWith perm rows).1.length = split_idx rows.length := by
    show ((perm.map (fun i => rows.getD i row0)).take (split_idx rows.length)).length = _
    rw [List.length_take, hlen]
    omega
  refine ⟨h1, ?_, fun hone => ?_⟩
  · show ((perm.map (fun i => rows.getD i row0)).drop (split_idx rows.length)).length = _
    rw [List.length_drop, hlen]
  · have : (temporalSplitWith perm rows).1.length = 0 := by
      rw [h1, hone]
      rfl
    exact List.length_eq_zero.mp this

/-- Witness for the amended C5: one record, empty training partition. -/
theorem temporal_split_no_empty_check_witness :
    (temporalSplitWith [0] [Row.mk 2 []]).1 = [] :=
  (temporal_split_no_empty_check [Row.mk 2 []] [0] (by decide)).2.2 rfl

/-! ## FeatureRanker: `get_top_features` (lines 61-64) -/

/-- Column `j` of a row-major matrix. -/
def columnOf (X : List (List ℚ)) (j : Nat) : List ℚ := X.map (fun r => r.getD j 0)

/-- `X.var(axis=0)` for an n×m matrix: the population variance of each of the
`m` columns (numpy reads `m` off the array's shape). -/
def colVariances (X : List (List ℚ)) (m : Nat) : List ℚ :=
  (List.range m).map (fun j => popVar (columnOf X j))

/-- The index selection `np.argsort(variances)[::-1][:k]` (line 63),
parameterized by the ascending argsort permutation the library returns. -/
def topIndicesWith (perm : List Nat) (k : Nat) : List Nat := perm.reverse.take k

/-- `get_top_features` (lines 61-64): per-column variances, ascending argsort,
full reversal, first `k` indices, names looked up in the fixed column order. -/
def get_top_features (X : List (List ℚ)) (m : Nat) (feature_names : List String)
    (k : Nat) : List String :=
  (topIndicesWith (argsortQ (colVariances X m)) k).map (fun i => feature_names.getD i "")

/-- The 5×3 matrix of the spec's ranking scenario: column variances are
exactly 10, 1 and 100. -/
def scenarioX : List (List ℚ) :=
  [[3, 3/2, 15], [-3, -3/2, -15], [4, 1/2, 5], [-4, -1/2, -5], [0, 0, 0]]

theorem scenarioX_variances : colVariances scenarioX 3 = [10, 1, 100] := by
  show (List.range 3).map _ = _
  rw [List.range_succ, List.range_succ, List.range_succ, List.range_zero]
  norm_num [columnOf, scenarioX, popVar, popMean]

theorem range_map_getD {α : Type} (l : List α) (d : α) :
    (List.range l.length).map (fun i => l.getD i d) = l := by
  induction l with
  | nil => rfl
  | cons a t ih =>
    rw [List.length_cons, List.range_succ_eq_map, List.map_cons, List.map_map]
    refine congrArg (List.cons a) ?_
    have hf : ((fun i => (a :: t).getD i d) ∘ Nat.succ) = fun i => t.getD i d := by
      funext i
      simp [Function.comp, List.getD_cons_succ]
    rw [hf]
    exact ih

/-- C6's tie rule is false on the code: with two features of equal variance,
the ascending argsort (a stable insertion sort at this size) yields `[0, 1]`,
and the `[::-1]` reversal in line 63 puts the *later* column first, the
opposite of ties-broken-by-original-column-order. -/
theorem ranker_tie_order_reversed :
    get_top_features [[0, 0], [2, 2]] 2 ["a", "b"] 2 = ["b", "a"]
    ∧ (["b", "a"] : List String) ≠ ["a", "b"] := by
  have hv : colVariances [[0, 0], [2, 2]] 2 = [1, 1] := by
    show (List.range 2).map _ = _
    rw [List.range_succ, List.range_succ, List.range_zero]
    norm_num [columnOf, popVar, popMean]
  constructor
  · rw [get_top_features, hv]
    decide
  · decide

/-- C6 amended: for `k ≤ m` the ranker returns `k` feature names whose
variances are nonincreasing along the output and dominate the variances of all
unselected columns; ties between equal variances are NOT broken by ascending
original column order (the reversal lists them backwards); for the spec's
scenario of three features with variances 10, 1, 100 and k = 2 the result is
the two highest-variance names in descending variance order. -/
theorem ranker_top_k_by_variance (X : List (List ℚ)) (m k : Nat) (names : List String)
    (perm : List Nat)
    (hperm : perm.Perm (List.range m))
    (hsort : (perm.map (fun j => (colVariances X m).getD j 0)).Pairwise (· ≤ ·))
    (hk : k ≤ m) :
    ((topIndicesWith perm k).map (fun i => names.getD i "")).length = k
    ∧ ((topIndicesWith perm k).map (fun j => (colVariances X m).getD j 0)).Pairwise (· ≥ ·)
    ∧ (∀ i ∈ topIndicesWith perm k, ∀ j ∈ perm.reverse.drop k,
        (colVariances X m).getD j 0 ≤ (colVariances X m).getD i 0)
    ∧ get_top_features scenarioX 3 ["a", "b", "c"] 2 = ["c", "a"] := by
  have hrev : (perm.reverse.map (fun j => (colVariances X m).getD j 0)).Pairwise (· ≥ ·) := by
    rw [List.map_reverse]
    rw [List.pairwise_reverse]
    exact hsort
  have hlen : perm.reverse.length = m := by
    rw [List.length_reverse, hperm.length_eq, List.length_range]
  refine ⟨?_, ?_, ?_, ?_⟩
  · rw [List.length_map, topIndicesWith, List.length_take, hlen]
    omega
  · rw [topIndicesWith, List.map_take]
    exact hrev.sublist (List.take_sublist _ _)
  · intro i hi j hj
    have hmi : (colVariances X m).getD i 0
        ∈ (perm.reverse.map (fun j => (colVariances X m).getD j 0)).take k := by
      rw [← List.map_take]
      exact List.mem_map_of_mem _ hi
    have hmj : (colVariances X m).getD j 0
        ∈ (perm.reverse.map (fun j => (colVariances X m).getD j 0)).drop k := by
      rw [← List.map_drop]
      exact List.mem_map_of_mem _ hj
    exact pairwise_take_drop hrev k _ hmi _ hmj
  · rw [get_top_features, scenarioX_variances]
    decide

/-- Witness for the amended C6 on a one-column matrix (and, through the last
conjunct, the concrete 10/1/100 scenario). -/
theorem ranker_top_k_by_variance_witness :
    ((topIndicesWith [0] 1).map (fun i => (["a"] : List String).getD i "")).length = 1
    ∧ get_top_features scenarioX 3 ["a", "b", "c"] 2 = ["c", "a"] := by
  have h := ranker_top_k_by_variance [[1], [3]] 1 1 ["a"] [0] (by decide)
    (List.pairwise_singleton _ _) (by decide)
  exact ⟨h.1, h.2.2.2⟩

/-- C10: when `k` exceeds the number `m` of features (e.g. the default `k = 7`
on a dataset with fewer than 7 numeric features), `[::-1][:k]` simply keeps
all `m` indices: the ranker returns all `m` feature names, ordered by
descending variance, and raises no error. -/
theorem ranker_k_exceeds_features (X : List (List ℚ)) (m k : Nat) (names : List String)
    (perm : List Nat)
    (hperm : perm.Perm (List.range m))
    (hsort : (perm.map (fun j => (colVariances X m).getD j 0)).Pairwise (· ≤ ·))
    (hm : names.length = m) (hk : m < k) :
    ((topIndicesWith perm k).map (fun i => names.getD i "")).length = m
    ∧ ((topIndicesWith perm k).map (fun i => names.getD i "")).Perm names
    ∧ ((topIndicesWith perm k).map (fun j => (colVariances X m).getD j 0)).Pairwise (· ≥ ·) := by
  have hlen : perm.reverse.length = m := by
    rw [List.length_reverse, hperm.length_eq, List.length_range]
  have htake : topIndicesWith perm k = perm.reverse := by
    rw [topIndicesWith]
    exact List.take_of_length_le (by omega)
  have hrev : (perm.reverse.map (fun j => (colVariances X m).getD j 0)).Pairwise (· ≥ ·) := by
    rw [List.map_reverse, List.pairwise_reverse]
    exact hsort
  refine ⟨?_, ?_, ?_⟩
  · rw [htake, List.length_map, hlen]
  · rw [htake]
    have hp : perm.reverse.Perm (List.range names.length) := by
      rw [hm]
      exact (List.reverse_perm perm).trans hperm
    have hmap := hp.map (fun i => names.getD i "")
    rw [range_map_getD names ""] at hmap
    exact hmap
  · rw [htake]
    exact hrev

/-- Witness for C10: one feature, default `k = 7`. -/
theorem ranker_k_exceeds_features_witness :
    ((topIndicesWith [0] 7).map (fun i => (["x"] : List String).getD i "")).length = 1
    ∧ ((topIndicesWith [0] 7).map (fun i => (["x"] : List String).getD i "")).Perm ["x"] := by
  have h := ranker_k_exceeds_features [[2], [4]] 1 7 ["x"] [0] (by decide)
    (List.pairwise_singleton _ _) (by decide) (by decide)
  exact ⟨h.1, h.2.1⟩

end AnomalyPipeline
